import Mathlib

/-!
Shallow embedding of the document-list merge command
(`documentlistmergecommand.js`, class `DocumentListMergeCommand`).

The host document is modelled as the list of sibling blocks, in document order.
A block records the attributes and schema facts the command reads:
`listIndent`, `listItemId`, whether the schema regards it as an object block,
and whether it is empty.  Reference identity of a model element is modelled by
the `id` field (its document-order position).  Positions are modelled by the
index of their parent block among the siblings; `none` models JavaScript
`null`/`undefined` where an element may be absent, and an `Option` result of a
method models the exception the JavaScript code would raise on the dereference
of an absent element (or the NaN poisoning of indent arithmetic).

`execute()` is modelled by the trace of operations it requests from the host
writer/model inside the single `model.change` transaction (`Effect.txBegin` /
`Effect.txEnd` bracket the transaction), together with the `changedBlocks`
array it accumulates.  Helper utilities that are called by the command but are
not part of the provided sources (`isListItemBlock`, `isSingleListItem`,
`isFirstBlockOfListItem`, `ListWalker.first`, `getNestedListBlocks`,
`indentBlocks`, `sortBlocks`, `mergeListItemBefore`, `model.deleteContent`)
are modelled from the specification, as marked on each definition.
-/

namespace DocListMerge

/-- Merge direction, `'backward'` or `'forward'`, fixed at construction. -/
inductive Direction
  | backward
  | forward
deriving DecidableEq

/-- A model block, carrying the attributes and schema facts read by the command.
`id` is the block's document-order position and models reference identity. -/
structure Block where
  id : Nat
  listIndent : Option Int
  listItemId : Option Nat
  isObj : Bool
  isEmpty : Bool
deriving DecidableEq

/-- The document selection as read by the command: the collapsed flag and the
indices (among the sibling blocks) of the parents of its first/last position. -/
structure Selection where
  isCollapsed : Bool
  firstIdx : Nat
  lastIdx : Nat
deriving DecidableEq

/-- The numeric value of a block's `listIndent` attribute, with the absent
attribute read as the numeric default 0 (the JS `|| 0` coercion). -/
def indentOf (b : Block) : Int := b.listIndent.getD 0

/-- Modelled from the spec: helper `isListItemBlock( node )` is not among the
provided sources (only its callers are).  Per the glossary a list block is "a
content block participating in a list, carrying an indent level and a
list-item identifier"; an absent node is not a list item block. -/
def isListItemBlock : Option Block → Bool
  | none => false
  | some b => b.listItemId.isSome

/-- Modelled from the spec: helper `isSingleListItem( blocks )` is not among
the provided sources.  It checks that the blocks "already belong to the same
list item"; per the glossary a list item is the set of blocks sharing one
list-item identifier. -/
def isSingleListItem : List Block → Bool
  | [] => false
  | b :: rest => b.listItemId.isSome && rest.all (fun x => x.listItemId == b.listItemId)

/-- The `previousSibling` of the block at index `i`, as an index. -/
def prevIdx (d : List Block) (i : Nat) : Option Nat :=
  if 0 < i ∧ i < d.length then some (i - 1) else none

/-- The `nextSibling` of the block at index `i`, as an index. -/
def nextIdx (d : List Block) (i : Nat) : Option Nat :=
  if i + 1 < d.length then some (i + 1) else none

/-- Modelled from the spec: helper `isFirstBlockOfListItem( block )` is not
among the provided sources.  A block is the first block of its list item when
no earlier sibling belongs to the same list item; a block carrying no
list-item identifier trivially is. -/
def isFirstBlockOfListItem (d : List Block) (i : Nat) : Bool :=
  match d.get? i with
  | none => true
  | some b =>
    match b.listItemId with
    | none => true
    | some itemId => (d.take i).all (fun x => x.listItemId != some itemId)

/-- Backward scan used by the list walk: starting right before index `j₀`,
walk over preceding list blocks (a non-list sibling ends the walk) and return
the first one whose indent is the same or lower than `ind`. -/
def walkBack (d : List Block) (ind : Int) : Nat → Option Nat
  | 0 => none
  | j + 1 =>
    match d.get? j with
    | none => none
    | some x =>
      if x.listItemId.isSome then
        if indentOf x ≤ ind then some j else walkBack d ind j
      else none

/-- Modelled from the spec:
`ListWalker.first( block, { sameIndent: true, lowerIndent: true } )` is not
among the provided sources.  It finds "the nearest preceding block at the same
or lower indent (found by a list walk)". -/
def listWalkerFirst (d : List Block) (i : Nat) : Option Nat :=
  match d.get? i with
  | none => none
  | some b => walkBack d (indentOf b) i

/-- Modelled from the spec: helper `getNestedListBlocks( block )` is not among
the provided sources.  It collects the block's "entire nested block subtree":
the run of directly following blocks at a strictly deeper indent. -/
def getNestedListBlocks (d : List Block) (i : Nat) : List Block :=
  match d.get? i with
  | none => []
  | some b => (d.drop (i + 1)).takeWhile (fun x => decide (indentOf b < indentOf x))

/-- The writer attribute update performed on one block when re-indenting it by
`indentBy`. -/
def reindent (indentBy : Int) (b : Block) : Block :=
  { b with listIndent := some (indentOf b + indentBy) }

/-- Modelled from the spec: the outcomes of host operations whose
implementations are not in the provided sources (`model.deleteContent`,
`mergeListItemBefore`, and the expand-scope computation inside
`indentBlocks`).  `execute()` requests the operation and reads the outcome
back from the host. -/
structure HostOutcome where
  /-- The blocks of "the subtree that logically follows within the same
  nesting scope", which `indentBlocks` additionally re-indents when its
  `expand` option is set. -/
  expandExtra : List Block
  /-- The parent of `sel.getLastPosition()` after `model.deleteContent`. -/
  lastElementAfterDelete : Block
  /-- The `nextSibling` of that parent after the deletion. -/
  nextSiblingAfterDelete : Option Block
  /-- The changed blocks returned by
  `mergeListItemBefore( nextSibling, lastElementAfterDelete, writer )`. -/
  mergeNextChanged : List Block
  /-- The changed blocks returned by
  `mergeListItemBefore( lastElement, firstElement, writer )`. -/
  mergeLastChanged : List Block

/-- Modelled from the spec: `indentBlocks( blocks, writer, { indentBy, expand } )`
is not among the provided sources.  It re-indents the given blocks by
`indentBy`; with `expand` it "must additionally re-indent the subtree that
logically follows within the same nesting scope"; it returns the changed
blocks. -/
def indentBlocks (host : HostOutcome) (blocks : List Block) (indentBy : Int)
    (expand : Bool) : List Block :=
  (if expand then blocks ++ host.expandExtra else blocks).map (reindent indentBy)

/-- Deduplication keeping first occurrences; models `new Set( changedBlocks )`
(JS `Set` iteration preserves first-insertion order). -/
def dedupFirstAux (seen : List Block) : List Block → List Block
  | [] => []
  | x :: xs => if x ∈ seen then dedupFirstAux seen xs else x :: dedupFirstAux (x :: seen) xs

/-- Deduplication of the changed-blocks array, keeping first occurrences. -/
def dedupFirst (l : List Block) : List Block := dedupFirstAux [] l

/-- Document order on blocks. -/
def blockLe (a b : Block) : Prop := a.id ≤ b.id

instance : DecidableRel blockLe := fun a b => Nat.decLe a.id b.id

instance : IsTotal Block blockLe := ⟨fun a b => Nat.le_total a.id b.id⟩

instance : IsTrans Block blockLe := ⟨fun _ _ _ h1 h2 => Nat.le_trans h1 h2⟩

/-- Strict document order on blocks. -/
def blockLt (a b : Block) : Prop := a.id < b.id

instance : IsAntisymm Block blockLt :=
  ⟨fun _ _ h1 h2 => absurd (Nat.lt_trans h1 h2) (Nat.lt_irrefl _)⟩

/-- Modelled from the spec: helper `sortBlocks( new Set( changedBlocks ) )` is
not among the provided sources.  The emitted set of blocks is "deduplicated
and sorted into document order". -/
def sortBlocks (l : List Block) : List Block :=
  List.insertionSort blockLe (dedupFirst l)

/-- One step observable in a run of `execute()`: a writer/model operation
requested inside `model.change`, the transaction markers, or the
`afterExecute` emission. -/
inductive Effect
  | txBegin
  | txEnd
  | indentOp (blocks : List Block) (indentBy : Int) (expand : Bool)
  | deleteSpan (first last : Block) (doNotResetEntireContent : Bool)
  | deleteSelectionContent (doNotResetEntireContent : Bool)
  | mergeBefore (block target : Block)
  | fireEvent (payload : List Block)
deriving DecidableEq

/-- Whether an effect is a transaction marker. -/
def Effect.isTx : Effect → Bool
  | Effect.txBegin => true
  | Effect.txEnd => true
  | _ => false

/-- Whether an effect is a document mutation (re-indent, content deletion, or
structural list-item merge). -/
def Effect.isMutation : Effect → Bool
  | Effect.indentOp _ _ _ => true
  | Effect.deleteSpan _ _ _ => true
  | Effect.deleteSelectionContent _ => true
  | Effect.mergeBefore _ _ => true
  | _ => false

/-- `_shouldMergeOnBlocksContentLevel()` (documentlistmergecommand.js,
lines 189-210).  `none` models the TypeError raised by the unguarded
dereference of an absent `previousSibling` (or an invalid position parent). -/
def shouldMergeOnBlocksContentLevel (d : List Block) (sel : Selection)
    (dir : Direction) : Option Bool :=
  if ¬sel.isCollapsed ∨ dir = Direction.forward then
    some true
  else
    match d.get? sel.firstIdx with
    | none => none
    | some positionParent =>
      match prevIdx d sel.firstIdx >>= d.get? with
      | none => none
      | some previousSibling =>
        if previousSibling.isObj then
          some false
        else if previousSibling.isEmpty then
          some true
        else
          some (isSingleListItem [positionParent, previousSibling])

/-- The pair of boundary elements, as indices among the siblings; `none`
models a `null` element reference. -/
structure Boundary where
  firstElement : Option Nat
  lastElement : Option Nat
deriving DecidableEq

/-- `_getBoundaryElements( selection, shouldMergeOnBlocksContentLevel )`
(lines 219-253). -/
def getBoundaryElements (d : List Block) (sel : Selection) (dir : Direction)
    (shouldMerge : Bool) : Boundary :=
  if sel.isCollapsed then
    if dir = Direction.backward then
      if isFirstBlockOfListItem d sel.firstIdx ∧ ¬shouldMerge then
        { firstElement := listWalkerFirst d sel.firstIdx
          lastElement := some sel.firstIdx }
      else
        { firstElement := prevIdx d sel.firstIdx
          lastElement := some sel.firstIdx }
    else
      { firstElement := some sel.firstIdx
        lastElement := nextIdx d sel.firstIdx }
  else
    { firstElement := some sel.firstIdx
      lastElement := some sel.lastIdx }

/-- `_checkEnabled()` (lines 144-183).  `none` models the exception propagated
from `_shouldMergeOnBlocksContentLevel`. -/
def checkEnabled (d : List Block) (sel : Selection) (dir : Direction) : Option Bool :=
  match shouldMergeOnBlocksContentLevel d sel dir with
  | none => none
  | some sm =>
    let bd := getBoundaryElements d sel dir sm
    if sm then
      some (isListItemBlock (bd.lastElement >>= d.get?))
    else
      some (isListItemBlock (bd.firstElement >>= d.get?))

/-- The command's mutable fields: `_direction`, assigned only in the
constructor, and the `isEnabled` flag maintained by `refresh()`. -/
structure CommandState where
  _direction : Direction
  isEnabled : Bool
deriving DecidableEq

/-- `constructor( editor, direction )` (lines 35-46): stores the direction;
the host command base starts disabled until the first refresh. -/
def mkCommand (direction : Direction) : CommandState :=
  { _direction := direction, isEnabled := false }

/-- `refresh()` (lines 51-53): recomputes `isEnabled` from `_checkEnabled()`. -/
def refresh (d : List Block) (sel : Selection) (c : CommandState) : Option CommandState :=
  (checkEnabled d sel c._direction).map (fun b => { c with isEnabled := b })

/-- The indent-reconciliation step of `execute()` (lines 70-83): when the
boundary indents differ, the last element together with its nested subtree is
handed to `indentBlocks`, re-indenting by the difference and expanding on
outdent.  Returns the requested operations and the pushed changed blocks. -/
def executeStep1 (d : List Block) (host : HostOutcome) (li : Nat)
    (fe le : Block) (lastIndent : Int) : List Effect × List Block :=
  let firstIndent := fe.listIndent.getD 0
  if firstIndent ≠ lastIndent then
    let nested := getNestedListBlocks d li
    let expand := decide (firstIndent < lastIndent)
    ([Effect.indentOp (le :: nested) (firstIndent - lastIndent) expand],
      indentBlocks host (le :: nested) (firstIndent - lastIndent) expand)
  else
    ([], [])

/-- The merge step of `execute()` (lines 85-113): on a content-level merge,
delete the selected content (the span from the end of the first element to
the start of the last element when the selection is collapsed), push the last
touched element, and absorb the following sibling into the same list item
when it exists, is not the original last element, and carries the original
last element's `listItemId`; otherwise merge the last element into the first
structurally. -/
def executeTailPart (sel : Selection) (host : HostOutcome) (sm : Bool)
    (fe le : Block) : List Effect × List Block :=
  if sm then
    let delEff :=
      if sel.isCollapsed then
        Effect.deleteSpan fe le sel.isCollapsed
      else
        Effect.deleteSelectionContent sel.isCollapsed
    let lastAfter := host.lastElementAfterDelete
    match host.nextSiblingAfterDelete with
    | some ns =>
      if ns.id ≠ le.id ∧ ns.listItemId = le.listItemId then
        ([delEff, Effect.mergeBefore ns lastAfter],
          [lastAfter] ++ host.mergeNextChanged)
      else
        ([delEff], [lastAfter])
    | none => ([delEff], [lastAfter])
  else
    ([Effect.mergeBefore le fe], host.mergeLastChanged)

/-- The body of the `model.change` callback of `execute()` (lines 66-114),
once the boundary elements are resolved: the writer operations requested, in
order, and the accumulated `changedBlocks` array.  `li` is the index of the
last element, `fe`/`le` the first/last elements, `lastIndent` the value of the
last element's `listIndent` attribute. -/
def executeCore (d : List Block) (sel : Selection) (host : HostOutcome)
    (sm : Bool) (li : Nat) (fe le : Block) (lastIndent : Int) :
    List Effect × List Block :=
  ((executeStep1 d host li fe le lastIndent).1 ++ (executeTailPart sel host sm fe le).1,
    (executeStep1 d host li fe le lastIndent).2 ++ (executeTailPart sel host sm fe le).2)

/-- `execute()` (lines 61-117): resolves the merge mode and the boundary
elements, performs the transaction, and fires `afterExecute` with the sorted,
deduplicated changed blocks (`_fireAfterExecute`, lines 125-136).  `none`
models a run the JS code cannot complete meaningfully: an attribute access on
an absent boundary element, or a `lastIndent` read as `undefined`, which
poisons the subsequent indent arithmetic with NaN. -/
def execute (d : List Block) (sel : Selection) (dir : Direction)
    (host : HostOutcome) : Option (List Effect × List Block) :=
  match shouldMergeOnBlocksContentLevel d sel dir with
  | none => none
  | some sm =>
    let bd := getBoundaryElements d sel dir sm
    match bd.firstElement, bd.lastElement with
    | some fi, some li =>
      match d.get? fi, d.get? li with
      | some fe, some le =>
        match le.listIndent with
        | none => none
        | some lastIndent =>
          let body := executeCore d sel host sm li fe le lastIndent
          some (Effect.txBegin ::
              (body.1 ++ [Effect.fireEvent (sortBlocks body.2), Effect.txEnd]),
            body.2)
      | _, _ => none
    | _, _ => none

/-- `execute()` viewed at the command-object level: the command's own state is
not written (no assignment to `_direction` or `isEnabled` occurs in the
method); the run's outcome is returned alongside the unchanged state. -/
def executeCmd (d : List Block) (sel : Selection) (host : HostOutcome)
    (c : CommandState) : Option (CommandState × (List Effect × List Block)) :=
  (execute d sel c._direction host).map (fun out => (c, out))

/-! ### Properties of deduplication and sorting -/

theorem mem_dedupFirstAux (a : Block) :
    ∀ (l seen : List Block), a ∈ dedupFirstAux seen l ↔ a ∈ l ∧ a ∉ seen := by
  intro l
  induction l with
  | nil => intro seen; simp [dedupFirstAux]
  | cons x xs ih =>
    intro seen
    by_cases hx : x ∈ seen
    · rw [show dedupFirstAux seen (x :: xs) = dedupFirstAux seen xs from by
        simp [dedupFirstAux, hx], ih]
      constructor
      · rintro ⟨h1, h2⟩
        exact ⟨List.mem_cons_of_mem x h1, h2⟩
      · rintro ⟨h1, h2⟩
        rcases List.mem_cons.mp h1 with rfl | h1
        · exact absurd hx h2
        · exact ⟨h1, h2⟩
    · rw [show dedupFirstAux seen (x :: xs) = x :: dedupFirstAux (x :: seen) xs from by
        simp [dedupFirstAux, hx]]
      constructor
      · intro hmem
        rcases List.mem_cons.mp hmem with rfl | hmem
        · exact ⟨List.mem_cons_self a xs, hx⟩
        · rw [ih] at hmem
          obtain ⟨h1, h2⟩ := hmem
          exact ⟨List.mem_cons_of_mem x h1, fun hs => h2 (List.mem_cons_of_mem x hs)⟩
      · rintro ⟨h1, h2⟩
        rcases List.mem_cons.mp h1 with rfl | h1
        · exact List.mem_cons_self a _
        · by_cases hax : a = x
          · subst hax; exact List.mem_cons_self a _
          · refine List.mem_cons_of_mem x ?_
            rw [ih]
            refine ⟨h1, fun hs => ?_⟩
            rcases List.mem_cons.mp hs with h | h
            · exact hax h
            · exact h2 h

theorem nodup_dedupFirstAux : ∀ (l seen : List Block), (dedupFirstAux seen l).Nodup := by
  intro l
  induction l with
  | nil => intro seen; simp [dedupFirstAux]
  | cons x xs ih =>
    intro seen
    by_cases hx : x ∈ seen
    · rw [show dedupFirstAux seen (x :: xs) = dedupFirstAux seen xs from by
        simp [dedupFirstAux, hx]]
      exact ih seen
    · rw [show dedupFirstAux seen (x :: xs) = x :: dedupFirstAux (x :: seen) xs from by
        simp [dedupFirstAux, hx]]
      refine List.nodup_cons.mpr ⟨?_, ih _⟩
      intro hmem
      rw [mem_dedupFirstAux] at hmem
      exact hmem.2 (List.mem_cons_self x seen)

theorem mem_dedupFirst (a : Block) (l : List Block) : a ∈ dedupFirst l ↔ a ∈ l := by
  unfold dedupFirst
  rw [mem_dedupFirstAux]
  simp

theorem nodup_dedupFirst (l : List Block) : (dedupFirst l).Nodup :=
  nodup_dedupFirstAux l []

theorem sortBlocks_sorted (l : List Block) : (sortBlocks l).Sorted blockLe :=
  List.sorted_insertionSort blockLe (dedupFirst l)

theorem sortBlocks_perm (l : List Block) : List.Perm (sortBlocks l) (dedupFirst l) :=
  List.perm_insertionSort blockLe (dedupFirst l)

theorem sortBlocks_nodup (l : List Block) : (sortBlocks l).Nodup :=
  (sortBlocks_perm l).nodup_iff.mpr (nodup_dedupFirst l)

theorem mem_sortBlocks (a : Block) (l : List Block) : a ∈ sortBlocks l ↔ a ∈ l := by
  rw [(sortBlocks_perm l).mem_iff, mem_dedupFirst]

theorem sorted_blockLt_of_le (l : List Block) (hs : l.Sorted blockLe) (hn : l.Nodup)
    (hinj : ∀ a ∈ l, ∀ b ∈ l, a.id = b.id → a = b) : l.Sorted blockLt := by
  have hc := hs.and hn
  exact hc.imp_of_mem (fun {a b} ha hb hab =>
    Nat.lt_of_le_of_ne hab.1 (fun h => hab.2 (hinj a ha b hb h)))

theorem sortBlocks_perm_invariant (l l' : List Block)
    (hinj : ∀ a ∈ l, ∀ b ∈ l, a.id = b.id → a = b)
    (hp : List.Perm l l') : sortBlocks l = sortBlocks l' := by
  have hmem : ∀ a : Block, a ∈ dedupFirst l ↔ a ∈ dedupFirst l' := by
    intro a
    rw [mem_dedupFirst, mem_dedupFirst, hp.mem_iff]
  have hdp : List.Perm (dedupFirst l) (dedupFirst l') :=
    (List.perm_ext_iff_of_nodup (nodup_dedupFirst l) (nodup_dedupFirst l')).2 hmem
  have hsp : List.Perm (sortBlocks l) (sortBlocks l') :=
    (sortBlocks_perm l).trans (hdp.trans (sortBlocks_perm l').symm)
  have hinj1 : ∀ a ∈ sortBlocks l, ∀ b ∈ sortBlocks l, a.id = b.id → a = b := by
    intro a ha b hb
    exact hinj a ((mem_sortBlocks a l).mp ha) b ((mem_sortBlocks b l).mp hb)
  have hinj2 : ∀ a ∈ sortBlocks l', ∀ b ∈ sortBlocks l', a.id = b.id → a = b := by
    intro a ha b hb
    exact hinj a (hp.mem_iff.mpr ((mem_sortBlocks a l').mp ha)) b
      (hp.mem_iff.mpr ((mem_sortBlocks b l').mp hb))
  exact List.eq_of_perm_of_sorted hsp
    (sorted_blockLt_of_le _ (sortBlocks_sorted l) (sortBlocks_nodup l) hinj1)
    (sorted_blockLt_of_le _ (sortBlocks_sorted l') (sortBlocks_nodup l') hinj2)

/-! ### Structure of an `execute()` run -/

theorem executeStep1_mem (d : List Block) (host : HostOutcome) (li : Nat)
    (fe le : Block) (lastIndent : Int) (e : Effect)
    (he : e ∈ (executeStep1 d host li fe le lastIndent).1) :
    ∃ bs n ex, e = Effect.indentOp bs n ex := by
  simp only [executeStep1] at he
  split_ifs at he with h
  · simp only [List.mem_singleton] at he
    exact ⟨_, _, _, he⟩
  · simp at he

theorem executeTailPart_mem (sel : Selection) (host : HostOutcome) (sm : Bool)
    (fe le : Block) (e : Effect)
    (he : e ∈ (executeTailPart sel host sm fe le).1) :
    (∃ f l b, e = Effect.deleteSpan f l b) ∨
      (∃ b, e = Effect.deleteSelectionContent b) ∨
      (∃ a b, e = Effect.mergeBefore a b) := by
  cases sm with
  | false =>
    simp only [executeTailPart, Bool.false_eq_true, if_false, List.mem_singleton] at he
    exact Or.inr (Or.inr ⟨_, _, he⟩)
  | true =>
    have hdel : ∀ b : Bool,
        (∃ f l b', Effect.deleteSpan fe le b = Effect.deleteSpan f l b') ∨
          (∃ b', Effect.deleteSpan fe le b = Effect.deleteSelectionContent b') ∨
          (∃ a b', Effect.deleteSpan fe le b = Effect.mergeBefore a b') :=
      fun b => Or.inl ⟨_, _, _, rfl⟩
    cases hns : host.nextSiblingAfterDelete with
    | none =>
      by_cases hcol : sel.isCollapsed = true
      · simp only [executeTailPart, hns, hcol, if_true, List.mem_singleton] at he
        subst he
        exact Or.inl ⟨_, _, _, rfl⟩
      · simp only [executeTailPart, hns, hcol, if_true, if_false,
          List.mem_singleton] at he
        subst he
        exact Or.inr (Or.inl ⟨_, rfl⟩)
    | some ns =>
      by_cases hcond : ns.id ≠ le.id ∧ ns.listItemId = le.listItemId
      · by_cases hcol : sel.isCollapsed = true
        · simp [executeTailPart, hns, hcol, if_pos hcond] at he
          rcases he with rfl | rfl
          · exact Or.inl ⟨_, _, _, rfl⟩
          · exact Or.inr (Or.inr ⟨_, _, rfl⟩)
        · simp [executeTailPart, hns, hcol, if_pos hcond] at he
          rcases he with rfl | rfl
          · exact Or.inr (Or.inl ⟨_, rfl⟩)
          · exact Or.inr (Or.inr ⟨_, _, rfl⟩)
      · by_cases hcol : sel.isCollapsed = true
        · simp only [executeTailPart, hns, hcol, if_true, if_neg hcond,
            List.mem_singleton] at he
          subst he
          exact Or.inl ⟨_, _, _, rfl⟩
        · simp only [executeTailPart, hns, hcol, if_true, if_false, if_neg hcond,
            List.mem_singleton] at he
          subst he
          exact Or.inr (Or.inl ⟨_, rfl⟩)

/-- Deterministic unfolding of a successful `execute()` run in terms of the
resolved boundary data. -/
theorem execute_eq (d : List Block) (sel : Selection) (dir : Direction)
    (host : HostOutcome) (sm : Bool) (fi li : Nat) (fe le : Block) (lastIndent : Int)
    (hsm : shouldMergeOnBlocksContentLevel d sel dir = some sm)
    (hfi : (getBoundaryElements d sel dir sm).firstElement = some fi)
    (hli : (getBoundaryElements d sel dir sm).lastElement = some li)
    (hfe : d.get? fi = some fe) (hle : d.get? li = some le)
    (hlin : le.listIndent = some lastIndent) :
    execute d sel dir host =
      some (Effect.txBegin ::
          ((executeCore d sel host sm li fe le lastIndent).1 ++
            [Effect.fireEvent (sortBlocks (executeCore d sel host sm li fe le lastIndent).2),
              Effect.txEnd]),
        (executeCore d sel host sm li fe le lastIndent).2) := by
  unfold execute
  simp only [hsm, hfi, hli, hfe, hle, hlin]

/-- Inversion of a successful `execute()` run: the boundary data resolved and
the run has the transaction shape. -/
theorem execute_inv (d : List Block) (sel : Selection) (dir : Direction)
    (host : HostOutcome) (tr : List Effect) (ch : List Block)
    (hex : execute d sel dir host = some (tr, ch)) :
    ∃ sm fi li fe le lastIndent,
      shouldMergeOnBlocksContentLevel d sel dir = some sm ∧
      (getBoundaryElements d sel dir sm).firstElement = some fi ∧
      (getBoundaryElements d sel dir sm).lastElement = some li ∧
      d.get? fi = some fe ∧ d.get? li = some le ∧ le.listIndent = some lastIndent ∧
      tr = Effect.txBegin ::
        ((executeCore d sel host sm li fe le lastIndent).1 ++
          [Effect.fireEvent (sortBlocks (executeCore d sel host sm li fe le lastIndent).2),
            Effect.txEnd]) ∧
      ch = (executeCore d sel host sm li fe le lastIndent).2 := by
  unfold execute at hex
  cases hsm : shouldMergeOnBlocksContentLevel d sel dir with
  | none => rw [hsm] at hex; exact absurd hex (by simp)
  | some sm =>
    rw [hsm] at hex
    cases hfi : (getBoundaryElements d sel dir sm).firstElement with
    | none => simp only [hfi] at hex; exact Option.noConfusion hex
    | some fi =>
      cases hli : (getBoundaryElements d sel dir sm).lastElement with
      | none => simp only [hfi, hli] at hex; exact Option.noConfusion hex
      | some li =>
        cases hfe : d.get? fi with
        | none => simp only [hfi, hli, hfe] at hex; exact Option.noConfusion hex
        | some fe =>
          cases hle : d.get? li with
          | none => simp only [hfi, hli, hfe, hle] at hex; exact Option.noConfusion hex
          | some le =>
            cases hlin : le.listIndent with
            | none =>
              simp only [hfi, hli, hfe, hle, hlin] at hex
              exact Option.noConfusion hex
            | some lastIndent =>
              simp only [hfi, hli, hfe, hle, hlin, Option.some.injEq] at hex
              exact ⟨sm, fi, li, fe, le, lastIndent, rfl, hfi, hli, hfe, hle, hlin,
                (congrArg Prod.fst hex).symm, (congrArg Prod.snd hex).symm⟩

/-! ### Concrete sample states used by witnesses and counterexamples -/

/-- A list block, first block of list item 7. -/
def sampleA : Block := ⟨0, some 0, some 7, false, false⟩

/-- A list block, second block of list item 7. -/
def sampleB : Block := ⟨1, some 0, some 7, false, false⟩

/-- A document of two blocks of one list item. -/
def sampleDoc : List Block := [sampleA, sampleB]

/-- A collapsed selection inside the second block. -/
def sampleSel : Selection := ⟨true, 1, 1⟩

/-- Host outcomes for a run on `sampleDoc`. -/
def sampleHost : HostOutcome := ⟨[], sampleB, none, [], []⟩

/-- A plain paragraph (no list attributes), non-empty, not an object. -/
def cexPara : Block := ⟨0, none, none, false, false⟩

/-- A list block directly preceded by the paragraph. -/
def cexItem : Block := ⟨1, some 0, some 5, false, false⟩

/-- A document consisting of the paragraph followed by the list block. -/
def cexDoc : List Block := [cexPara, cexItem]

/-- A collapsed selection inside the list block. -/
def cexSel : Selection := ⟨true, 1, 1⟩

/-- The operation trace of the sample backward run. -/
def sampleTr : List Effect :=
  [Effect.txBegin, Effect.deleteSpan sampleA sampleB true,
    Effect.fireEvent [sampleB], Effect.txEnd]

/-- The changed blocks of the sample backward run. -/
def sampleCh : List Block := [sampleB]

/-! ### Claim theorems -/

/-- C1: the content-level-merge decision returns true when the selection is a
non-collapsed range or the direction is forward; for a collapsed backward
selection with the position parent and its previous sibling present, it
returns false when the preceding sibling is a schema-object block, true when
the preceding sibling is empty, and otherwise returns true exactly when the
position's parent block and its preceding sibling already form one single
list item. -/
theorem c1_content_level_merge_decision (d : List Block) (sel : Selection) (dir : Direction) :
    ((¬sel.isCollapsed ∨ dir = Direction.forward) →
      shouldMergeOnBlocksContentLevel d sel dir = some true) ∧
    (sel.isCollapsed = true → dir = Direction.backward →
      ∀ pp ps, d.get? sel.firstIdx = some pp →
        (prevIdx d sel.firstIdx >>= d.get?) = some ps →
        shouldMergeOnBlocksContentLevel d sel dir =
          some (if ps.isObj then false
            else if ps.isEmpty then true
            else isSingleListItem [pp, ps])) := by
  constructor
  · intro h
    unfold shouldMergeOnBlocksContentLevel
    rw [if_pos h]
  · intro hc hd pp ps hpp hps
    subst hd
    unfold shouldMergeOnBlocksContentLevel
    rw [if_neg (by simp [hc])]
    simp only [hpp, hps]
    split_ifs <;> rfl

/-- C1 witness: a concrete collapsed backward selection exercising the
same-list-item branch. -/
theorem c1_content_level_merge_decision_witness :
    sampleSel.isCollapsed = true ∧
    sampleDoc.get? sampleSel.firstIdx = some sampleB ∧
    (prevIdx sampleDoc sampleSel.firstIdx >>= sampleDoc.get?) = some sampleA ∧
    shouldMergeOnBlocksContentLevel sampleDoc sampleSel Direction.backward =
      some (if sampleA.isObj then false
        else if sampleA.isEmpty then true
        else isSingleListItem [sampleB, sampleA]) :=
  ⟨by decide, by decide, by decide,
    (c1_content_level_merge_decision sampleDoc sampleSel Direction.backward).2
      (by decide) rfl sampleB sampleA (by decide) (by decide)⟩

/-- C2: boundary resolution returns, for a non-collapsed range, the blocks at
the range's first and last positions; for a collapsed forward selection, the
position's parent and its next sibling; for a collapsed backward selection,
the parent as last element, with the first element found by the list walk
when the parent is the first block of its list item and the merge is not
content-level, and the parent's previous sibling otherwise. -/
theorem c2_boundary_resolution (d : List Block) (sel : Selection) (dir : Direction) (sm : Bool) :
    (¬sel.isCollapsed →
      getBoundaryElements d sel dir sm =
        { firstElement := some sel.firstIdx, lastElement := some sel.lastIdx }) ∧
    (sel.isCollapsed = true → dir = Direction.forward →
      getBoundaryElements d sel dir sm =
        { firstElement := some sel.firstIdx, lastElement := nextIdx d sel.firstIdx }) ∧
    (sel.isCollapsed = true → dir = Direction.backward →
      isFirstBlockOfListItem d sel.firstIdx = true → sm = false →
      getBoundaryElements d sel dir sm =
        { firstElement := listWalkerFirst d sel.firstIdx, lastElement := some sel.firstIdx }) ∧
    (sel.isCollapsed = true → dir = Direction.backward →
      ¬(isFirstBlockOfListItem d sel.firstIdx = true ∧ sm = false) →
      getBoundaryElements d sel dir sm =
        { firstElement := prevIdx d sel.firstIdx, lastElement := some sel.firstIdx }) := by
  refine ⟨?_, ?_, ?_, ?_⟩
  · intro h
    unfold getBoundaryElements
    rw [if_neg h]
  · intro hc hd
    subst hd
    unfold getBoundaryElements
    rw [if_pos hc, if_neg (by simp)]
  · intro hc hd hfb hsm
    subst hd hsm
    unfold getBoundaryElements
    rw [if_pos hc, if_pos rfl, if_pos (by simp [hfb])]
  · intro hc hd hn
    subst hd
    unfold getBoundaryElements
    rw [if_pos hc, if_pos rfl, if_neg (by simpa using hn)]

/-- C2 witness: a concrete collapsed backward selection taking the
previous-sibling branch. -/
theorem c2_boundary_resolution_witness :
    sampleSel.isCollapsed = true ∧
    ¬(isFirstBlockOfListItem sampleDoc sampleSel.firstIdx = true ∧ true = false) ∧
    getBoundaryElements sampleDoc sampleSel Direction.backward true =
      { firstElement := prevIdx sampleDoc sampleSel.firstIdx
        lastElement := some sampleSel.firstIdx } :=
  ⟨by decide, by decide,
    (c2_boundary_resolution sampleDoc sampleSel Direction.backward true).2.2.2
      (by decide) rfl (by decide)⟩

/-- C3 (amended): the enablement check is a pure function of the document and
selection; whenever the content-level-merge decision resolves, it returns a
boolean, namely whether the trailing (last) boundary block is a list-item
block in the content-level case, and whether the leading (first) boundary
block is a list-item block in the structural case. -/
theorem c3_enabled_check_amended (d : List Block) (sel : Selection) (dir : Direction) (sm : Bool)
    (h : shouldMergeOnBlocksContentLevel d sel dir = some sm) :
    checkEnabled d sel dir =
      some (if sm then
          isListItemBlock ((getBoundaryElements d sel dir sm).lastElement >>= d.get?)
        else
          isListItemBlock ((getBoundaryElements d sel dir sm).firstElement >>= d.get?)) := by
  unfold checkEnabled
  rw [h]
  cases sm <;> simp

/-- C3 counterexample: with the caret collapsed at the start of a list block
whose previous sibling is a non-empty plain paragraph, the merge is
structural, the enablement check returns false, yet the trailing boundary
block is a list-item block — refuting that the check returns true exactly
when the trailing boundary block is a list-item block. -/
theorem c3_enabled_check_counterexample :
    checkEnabled cexDoc cexSel Direction.backward = some false ∧
    shouldMergeOnBlocksContentLevel cexDoc cexSel Direction.backward = some false ∧
    isListItemBlock ((getBoundaryElements cexDoc cexSel Direction.backward false).lastElement >>=
      cexDoc.get?) = true := by
  decide

/-- C3 witness: the amended characterization evaluated on the concrete
counterexample state. -/
theorem c3_enabled_check_witness :
    shouldMergeOnBlocksContentLevel cexDoc cexSel Direction.backward = some false ∧
    checkEnabled cexDoc cexSel Direction.backward =
      some (if false then
          isListItemBlock ((getBoundaryElements cexDoc cexSel Direction.backward false).lastElement >>=
            cexDoc.get?)
        else
          isListItemBlock ((getBoundaryElements cexDoc cexSel Direction.backward false).firstElement >>=
            cexDoc.get?)) :=
  ⟨by decide, c3_enabled_check_amended cexDoc cexSel Direction.backward false (by decide)⟩

/-- C4: whenever the boundary blocks differ in indent, execute() hands the
last block together with its entire nested subtree to one re-indent
operation whose delta is the indent difference — so the last block ends up at
the first block's indent — and whose expansion flag is set exactly when the
change is an outdent (first indent strictly below the last indent), in which
case the following subtree in scope is re-indented as well; with equal
indents no re-indent operation is requested at all. -/
theorem c4_indent_reconciliation (d : List Block) (sel : Selection) (dir : Direction)
    (host : HostOutcome) (sm : Bool) (fi li : Nat) (fe le : Block) (lastIndent : Int)
    (tr : List Effect) (ch : List Block)
    (hsm : shouldMergeOnBlocksContentLevel d sel dir = some sm)
    (hfi : (getBoundaryElements d sel dir sm).firstElement = some fi)
    (hli : (getBoundaryElements d sel dir sm).lastElement = some li)
    (hfe : d.get? fi = some fe) (hle : d.get? li = some le)
    (hlin : le.listIndent = some lastIndent)
    (hex : execute d sel dir host = some (tr, ch)) :
    (fe.listIndent.getD 0 ≠ lastIndent →
      Effect.indentOp (le :: getNestedListBlocks d li) (fe.listIndent.getD 0 - lastIndent)
          (decide (fe.listIndent.getD 0 < lastIndent)) ∈ tr ∧
      (∀ b ∈ le :: getNestedListBlocks d li,
        reindent (fe.listIndent.getD 0 - lastIndent) b ∈ ch) ∧
      (reindent (fe.listIndent.getD 0 - lastIndent) le).listIndent =
        some (fe.listIndent.getD 0) ∧
      (fe.listIndent.getD 0 < lastIndent →
        ∀ b ∈ host.expandExtra, reindent (fe.listIndent.getD 0 - lastIndent) b ∈ ch)) ∧
    (fe.listIndent.getD 0 = lastIndent →
      ∀ bs n ex, Effect.indentOp bs n ex ∉ tr) := by
  have heq := execute_eq d sel dir host sm fi li fe le lastIndent hsm hfi hli hfe hle hlin
  rw [hex] at heq
  have hpair := Option.some.inj heq
  have htr := congrArg Prod.fst hpair
  have hch := congrArg Prod.snd hpair
  simp only at htr hch
  subst htr hch
  simp only [executeCore]
  constructor
  · intro hne
    have hstep : executeStep1 d host li fe le lastIndent =
        ([Effect.indentOp (le :: getNestedListBlocks d li)
            (fe.listIndent.getD 0 - lastIndent)
            (decide (fe.listIndent.getD 0 < lastIndent))],
          indentBlocks host (le :: getNestedListBlocks d li)
            (fe.listIndent.getD 0 - lastIndent)
            (decide (fe.listIndent.getD 0 < lastIndent))) := by
      simp only [executeStep1, if_pos hne]
    refine ⟨?_, ?_, ?_, ?_⟩
    · exact List.mem_cons_of_mem _ (List.mem_append_left _ (List.mem_append_left _
        (by rw [hstep]; exact List.mem_singleton.mpr rfl)))
    · intro b hb
      apply List.mem_append_left
      rw [hstep]
      unfold indentBlocks
      split_ifs
      · exact List.mem_map_of_mem _ (List.mem_append_left _ hb)
      · exact List.mem_map_of_mem _ hb
    · simp only [reindent, indentOf, hlin, Option.getD_some, Option.some.injEq]
      omega
    · intro hlt b hb
      apply List.mem_append_left
      rw [hstep]
      unfold indentBlocks
      rw [if_pos (by simp [hlt])]
      exact List.mem_map_of_mem _ (List.mem_append_right _ hb)
  · intro heqI bs n ex hmem
    have hstep : executeStep1 d host li fe le lastIndent = ([], []) := by
      simp only [executeStep1, if_neg (not_ne_iff.mpr heqI)]
    rcases List.mem_cons.mp hmem with h | h
    · exact Effect.noConfusion h
    rcases List.mem_append.mp h with h | h
    · rcases List.mem_append.mp h with h | h
      · rw [hstep] at h
        simp at h
      · rcases executeTailPart_mem sel host sm fe le _ h with
          ⟨f, l, b, h⟩ | ⟨b, h⟩ | ⟨a, b, h⟩ <;> exact Effect.noConfusion h
    · rcases List.mem_cons.mp h with h | h
      · exact Effect.noConfusion h
      · rcases List.mem_cons.mp h with h | h
        · exact Effect.noConfusion h
        · simp at h

/-- A list block at indent 0, first list item. -/
def nest0 : Block := ⟨0, some 0, some 1, false, false⟩

/-- A list block at indent 2, second list item. -/
def nest1 : Block := ⟨1, some 2, some 2, false, false⟩

/-- A list block at indent 3, nested under the previous one. -/
def nest2 : Block := ⟨2, some 3, some 3, false, false⟩

/-- A document with a nested-indent structure. -/
def nestDoc : List Block := [nest0, nest1, nest2]

/-- A collapsed selection inside the first block. -/
def nestSel : Selection := ⟨true, 0, 0⟩

/-- Host outcomes for the forward run on `nestDoc`. -/
def nestHost : HostOutcome := ⟨[], nest0, none, [], []⟩

/-- The operation trace of the forward run on `nestDoc`. -/
def nestTr : List Effect :=
  [Effect.txBegin,
    Effect.indentOp [nest1, nest2] (-2) true,
    Effect.deleteSpan nest0 nest1 true,
    Effect.fireEvent [nest0, reindent (-2) nest1, reindent (-2) nest2],
    Effect.txEnd]

/-- The changed blocks of the forward run on `nestDoc`. -/
def nestCh : List Block := [reindent (-2) nest1, reindent (-2) nest2, nest0]

/-- C4 witness: a concrete outdenting forward merge exercising the re-indent
branch. -/
theorem c4_indent_reconciliation_witness :
    execute nestDoc nestSel Direction.forward nestHost = some (nestTr, nestCh) ∧
    nest0.listIndent.getD 0 ≠ (2 : Int) ∧
    (Effect.indentOp (nest1 :: getNestedListBlocks nestDoc 1)
        (nest0.listIndent.getD 0 - 2) (decide (nest0.listIndent.getD 0 < 2)) ∈ nestTr ∧
      (∀ b ∈ nest1 :: getNestedListBlocks nestDoc 1,
        reindent (nest0.listIndent.getD 0 - 2) b ∈ nestCh) ∧
      (reindent (nest0.listIndent.getD 0 - 2) nest1).listIndent =
        some (nest0.listIndent.getD 0) ∧
      (nest0.listIndent.getD 0 < 2 →
        ∀ b ∈ nestHost.expandExtra, reindent (nest0.listIndent.getD 0 - 2) b ∈ nestCh)) :=
  ⟨by decide, by decide,
    (c4_indent_reconciliation nestDoc nestSel Direction.forward nestHost true 0 1
      nest0 nest1 2 nestTr nestCh (by decide) (by decide) (by decide) (by decide)
      (by decide) (by decide) (by decide)).1 (by decide)⟩

/-- C5: when the content-level-merge decision is true, execute() deletes the
selected content (for a collapsed selection, the span from the end of the
first boundary block to the start of the last boundary block), and the block
following the merge point is additionally merged into the same list item
exactly when it exists, differs from the original last boundary block, and
carries the original last block's listItemId; when the decision is false, the
last boundary block is merged into the first as a structural list-item merge
with no content deletion. -/
theorem c5_content_merge_execution (d : List Block) (sel : Selection) (dir : Direction)
    (host : HostOutcome) (sm : Bool) (fi li : Nat) (fe le : Block) (lastIndent : Int)
    (tr : List Effect) (ch : List Block)
    (hsm : shouldMergeOnBlocksContentLevel d sel dir = some sm)
    (hfi : (getBoundaryElements d sel dir sm).firstElement = some fi)
    (hli : (getBoundaryElements d sel dir sm).lastElement = some li)
    (hfe : d.get? fi = some fe) (hle : d.get? li = some le)
    (hlin : le.listIndent = some lastIndent)
    (hex : execute d sel dir host = some (tr, ch)) :
    (sm = true →
      (sel.isCollapsed = true → Effect.deleteSpan fe le sel.isCollapsed ∈ tr) ∧
      (sel.isCollapsed = false → Effect.deleteSelectionContent sel.isCollapsed ∈ tr) ∧
      (∀ ns, host.nextSiblingAfterDelete = some ns →
        (Effect.mergeBefore ns host.lastElementAfterDelete ∈ tr ↔
          (ns.id ≠ le.id ∧ ns.listItemId = le.listItemId))) ∧
      (host.nextSiblingAfterDelete = none →
        ∀ a b, Effect.mergeBefore a b ∉ tr)) ∧
    (sm = false →
      Effect.mergeBefore le fe ∈ tr ∧
      (∀ f l b, Effect.deleteSpan f l b ∉ tr) ∧
      (∀ b, Effect.deleteSelectionContent b ∉ tr)) := by
  have heq := execute_eq d sel dir host sm fi li fe le lastIndent hsm hfi hli hfe hle hlin
  rw [hex] at heq
  have hpair := Option.some.inj heq
  have htr := congrArg Prod.fst hpair
  have hch := congrArg Prod.snd hpair
  simp only at htr hch
  subst htr hch
  simp only [executeCore]
  have hin : ∀ (e : Effect) (L1 L2 L3 : List Effect), e ∈ L2 →
      e ∈ Effect.txBegin :: ((L1 ++ L2) ++ L3) := fun e L1 L2 L3 he =>
    List.mem_cons_of_mem _ (List.mem_append_left _ (List.mem_append_right _ he))
  have hout : ∀ (e : Effect) (L1 L2 L3 : List Effect),
      e ∈ Effect.txBegin :: ((L1 ++ L2) ++ L3) →
      e = Effect.txBegin ∨ e ∈ L1 ∨ e ∈ L2 ∨ e ∈ L3 := by
    intro e L1 L2 L3 he
    rcases List.mem_cons.mp he with h | h
    · exact Or.inl h
    rcases List.mem_append.mp h with h | h
    · rcases List.mem_append.mp h with h | h
      · exact Or.inr (Or.inl h)
      · exact Or.inr (Or.inr (Or.inl h))
    · exact Or.inr (Or.inr (Or.inr h))
  have hL3 : ∀ (e : Effect) (p : List Block),
      e ∈ [Effect.fireEvent p, Effect.txEnd] →
      e = Effect.fireEvent p ∨ e = Effect.txEnd := by
    intro e p h
    rcases List.mem_cons.mp h with h | h
    · exact Or.inl h
    rcases List.mem_cons.mp h with h | h
    · exact Or.inr h
    · simp at h
  constructor
  · rintro rfl
    refine ⟨?_, ?_, ?_, ?_⟩
    · intro hcol
      apply hin
      cases hns : host.nextSiblingAfterDelete with
      | none => simp [executeTailPart, hns, hcol]
      | some ns =>
        by_cases hcond : ns.id ≠ le.id ∧ ns.listItemId = le.listItemId
        · simp [executeTailPart, hns, hcol, if_pos hcond]
        · simp [executeTailPart, hns, hcol, if_neg hcond]
    · intro hcol
      apply hin
      cases hns : host.nextSiblingAfterDelete with
      | none => simp [executeTailPart, hns, hcol]
      | some ns =>
        by_cases hcond : ns.id ≠ le.id ∧ ns.listItemId = le.listItemId
        · simp [executeTailPart, hns, hcol, if_pos hcond]
        · simp [executeTailPart, hns, hcol, if_neg hcond]
    · intro ns hns
      constructor
      · intro hmem
        rcases hout _ _ _ _ hmem with h | h | h | h
        · exact Effect.noConfusion h
        · obtain ⟨bs, n, ex, h⟩ := executeStep1_mem d host li fe le lastIndent _ h
          exact Effect.noConfusion h
        · by_cases hcond : ns.id ≠ le.id ∧ ns.listItemId = le.listItemId
          · exact hcond
          · exfalso
            by_cases hcol : sel.isCollapsed = true
            · simp [executeTailPart, hns, hcol, if_neg hcond] at h
            · simp [executeTailPart, hns, hcol, if_neg hcond] at h
        · rcases hL3 _ _ h with h | h <;> exact Effect.noConfusion h
      · intro hcond
        apply hin
        by_cases hcol : sel.isCollapsed = true
        · simp [executeTailPart, hns, hcol, if_pos hcond]
        · simp [executeTailPart, hns, hcol, if_pos hcond]
    · intro hns a b hmem
      rcases hout _ _ _ _ hmem with h | h | h | h
      · exact Effect.noConfusion h
      · obtain ⟨bs, n, ex, h⟩ := executeStep1_mem d host li fe le lastIndent _ h
        exact Effect.noConfusion h
      · by_cases hcol : sel.isCollapsed = true
        · simp [executeTailPart, hns, hcol] at h
        · simp [executeTailPart, hns, hcol] at h
      · rcases hL3 _ _ h with h | h <;> exact Effect.noConfusion h
  · rintro rfl
    refine ⟨?_, ?_, ?_⟩
    · apply hin
      simp [executeTailPart]
    · intro f l b hmem
      rcases hout _ _ _ _ hmem with h | h | h | h
      · exact Effect.noConfusion h
      · obtain ⟨bs, n, ex, h⟩ := executeStep1_mem d host li fe le lastIndent _ h
        exact Effect.noConfusion h
      · simp [executeTailPart] at h
      · rcases hL3 _ _ h with h | h <;> exact Effect.noConfusion h
    · intro b hmem
      rcases hout _ _ _ _ hmem with h | h | h | h
      · exact Effect.noConfusion h
      · obtain ⟨bs, n, ex, h⟩ := executeStep1_mem d host li fe le lastIndent _ h
        exact Effect.noConfusion h
      · simp [executeTailPart] at h
      · rcases hL3 _ _ h with h | h <;> exact Effect.noConfusion h

/-- C5 witness: the sample collapsed backward content-level run — the span
deletion is requested and, with no following sibling, no absorption occurs. -/
theorem c5_content_merge_execution_witness :
    execute sampleDoc sampleSel Direction.backward sampleHost = some (sampleTr, sampleCh) ∧
    sampleSel.isCollapsed = true ∧
    Effect.deleteSpan sampleA sampleB sampleSel.isCollapsed ∈ sampleTr ∧
    (∀ a b, Effect.mergeBefore a b ∉ sampleTr) :=
  ⟨by decide, by decide,
    ((c5_content_merge_execution sampleDoc sampleSel Direction.backward sampleHost true
        0 1 sampleA sampleB 0 sampleTr sampleCh (by decide) (by decide) (by decide)
        (by decide) (by decide) (by decide) (by decide)).1 rfl).1 (by decide),
    ((c5_content_merge_execution sampleDoc sampleSel Direction.backward sampleHost true
        0 1 sampleA sampleB 0 sampleTr sampleCh (by decide) (by decide) (by decide)
        (by decide) (by decide) (by decide) (by decide)).1 rfl).2.2.2 (by decide)⟩

/-- C6 (amended): every successful `execute()` run fires `afterExecute`
exactly once, as the final step inside the change transaction, after every
operation the transaction requested; the payload is the set of changed blocks
deduplicated and sorted into document order, and this payload is insensitive
to the order in which the intermediate steps pushed blocks. -/
theorem c6_after_execute_amended (d : List Block) (sel : Selection) (dir : Direction)
    (host : HostOutcome) (tr : List Effect) (ch : List Block)
    (hex : execute d sel dir host = some (tr, ch)) :
    (∃ steps, tr = Effect.txBegin ::
        (steps ++ [Effect.fireEvent (sortBlocks ch), Effect.txEnd]) ∧
      ∀ p, Effect.fireEvent p ∉ steps) ∧
    (sortBlocks ch).Sorted blockLe ∧
    (sortBlocks ch).Nodup ∧
    (∀ b, b ∈ sortBlocks ch ↔ b ∈ ch) ∧
    (∀ l l', (∀ a ∈ l, ∀ b ∈ l, a.id = b.id → a = b) →
      List.Perm l l' → sortBlocks l = sortBlocks l') := by
  obtain ⟨sm, fi, li, fe, le, lastIndent, hsm, hfi, hli, hfe, hle, hlin, htr, hch⟩ :=
    execute_inv d sel dir host tr ch hex
  refine ⟨⟨(executeCore d sel host sm li fe le lastIndent).1, ?_, ?_⟩,
    sortBlocks_sorted ch, sortBlocks_nodup ch, fun b => mem_sortBlocks b ch,
    sortBlocks_perm_invariant⟩
  · rw [htr, hch]
  · intro p hp
    simp only [executeCore] at hp
    rcases List.mem_append.mp hp with hp | hp
    · obtain ⟨bs, n, ex, h⟩ := executeStep1_mem d host li fe le lastIndent _ hp
      exact Effect.noConfusion h
    · rcases executeTailPart_mem sel host sm fe le _ hp with ⟨f, l, b, h⟩ | ⟨b, h⟩ | ⟨a, b, h⟩ <;>
        exact Effect.noConfusion h

/-- C6 counterexample: in a concrete run the `afterExecute` event is fired
strictly before the final step of the change transaction, i.e. inside the
transaction rather than after it completes. -/
theorem c6_after_execute_counterexample :
    execute sampleDoc sampleSel Direction.backward sampleHost = some (sampleTr, sampleCh) ∧
    sampleTr.getLast? = some Effect.txEnd ∧
    Effect.fireEvent (sortBlocks sampleCh) ∈ sampleTr.dropLast := by
  decide

/-- C6 witness: the amended statement evaluated on the sample run. -/
theorem c6_after_execute_witness :
    execute sampleDoc sampleSel Direction.backward sampleHost = some (sampleTr, sampleCh) ∧
    ((∃ steps, sampleTr = Effect.txBegin ::
        (steps ++ [Effect.fireEvent (sortBlocks sampleCh), Effect.txEnd]) ∧
      ∀ p, Effect.fireEvent p ∉ steps) ∧
    (sortBlocks sampleCh).Sorted blockLe ∧
    (sortBlocks sampleCh).Nodup ∧
    (∀ b, b ∈ sortBlocks sampleCh ↔ b ∈ sampleCh) ∧
    (∀ l l', (∀ a ∈ l, ∀ b ∈ l, a.id = b.id → a = b) →
      List.Perm l l' → sortBlocks l = sortBlocks l')) :=
  ⟨by decide,
    c6_after_execute_amended sampleDoc sampleSel Direction.backward sampleHost
      sampleTr sampleCh (by decide)⟩

/-- C7: the enablement computation is deterministic and refresh is
idempotent: a second refresh without an intervening execute reproduces the
same state, hence the same boolean. -/
theorem c7_refresh_idempotent (d : List Block) (sel : Selection) (c c' : CommandState)
    (h : refresh d sel c = some c') :
    refresh d sel c' = some c' := by
  unfold refresh at h ⊢
  cases hce : checkEnabled d sel c._direction with
  | none => rw [hce] at h; exact absurd h (by simp)
  | some b =>
    rw [hce] at h
    simp only [Option.map_some'] at h
    obtain rfl := Option.some.inj h
    rw [show ({ c with isEnabled := b } : CommandState)._direction = c._direction from rfl, hce]
    rfl

/-- C7 witness: refresh applied twice on a concrete state. -/
theorem c7_refresh_idempotent_witness :
    refresh sampleDoc sampleSel (mkCommand Direction.backward) =
      some { _direction := Direction.backward, isEnabled := true } ∧
    refresh sampleDoc sampleSel { _direction := Direction.backward, isEnabled := true } =
      some { _direction := Direction.backward, isEnabled := true } :=
  ⟨by decide,
    c7_refresh_idempotent sampleDoc sampleSel (mkCommand Direction.backward)
      { _direction := Direction.backward, isEnabled := true } (by decide)⟩

/-- A prefix of a single-transaction trace with balanced transaction markers
is either empty or the whole trace. -/
theorem balanced_prefix_all_or_nothing (mid : List Effect)
    (hmid : ∀ e ∈ mid, e.isTx = false) (n : Nat)
    (hbal : ((Effect.txBegin :: (mid ++ [Effect.txEnd])).take n).count Effect.txBegin =
      ((Effect.txBegin :: (mid ++ [Effect.txEnd])).take n).count Effect.txEnd) :
    (Effect.txBegin :: (mid ++ [Effect.txEnd])).take n = [] ∨
      (Effect.txBegin :: (mid ++ [Effect.txEnd])).take n =
        Effect.txBegin :: (mid ++ [Effect.txEnd]) := by
  cases n with
  | zero => exact Or.inl rfl
  | succ m =>
    right
    rw [List.take_succ_cons] at hbal ⊢
    rw [List.count_cons_self] at hbal
    rw [List.count_cons_of_ne (by decide)] at hbal
    have hb0 : Effect.txBegin ∉ (mid ++ [Effect.txEnd]).take m := by
      intro hmem
      have hmem' := List.take_subset m _ hmem
      rcases List.mem_append.mp hmem' with h | h
      · have := hmid _ h
        simp [Effect.isTx] at this
      · simp at h
    rw [List.count_eq_zero.mpr hb0] at hbal
    have h1 : ((mid ++ [Effect.txEnd]).take m).count Effect.txEnd = 1 := by omega
    rw [List.take_append_eq_append_take, List.count_append] at h1
    have hmz : ((mid.take m).count Effect.txEnd) = 0 := by
      apply List.count_eq_zero.mpr
      intro hmem
      have := hmid _ (List.take_subset m mid hmem)
      simp [Effect.isTx] at this
    rw [hmz] at h1
    cases hk : m - mid.length with
    | zero => rw [hk] at h1; simp at h1
    | succ j =>
      have hlen : (mid ++ [Effect.txEnd]).length ≤ m := by
        simp only [List.length_append, List.length_singleton]
        omega
      rw [List.take_of_length_le hlen]

/-- C8: every document mutation performed by a successful `execute()` run
happens strictly inside the single transaction: any prefix of the operation
trace with balanced transaction markers (an observation point outside the
transaction) contains either none of the mutations or all of them — no
partial-merge state is observable outside the transaction. -/
theorem c8_single_transaction (d : List Block) (sel : Selection) (dir : Direction)
    (host : HostOutcome) (tr : List Effect) (ch : List Block)
    (hex : execute d sel dir host = some (tr, ch)) :
    ∀ n, ((tr.take n).count Effect.txBegin = (tr.take n).count Effect.txEnd) →
      ((tr.take n).filter Effect.isMutation = [] ∨
        (tr.take n).filter Effect.isMutation = tr.filter Effect.isMutation) := by
  obtain ⟨sm, fi, li, fe, le, lastIndent, hsm, hfi, hli, hfe, hle, hlin, htr, hch⟩ :=
    execute_inv d sel dir host tr ch hex
  have hshape : tr = Effect.txBegin ::
      (((executeCore d sel host sm li fe le lastIndent).1 ++
        [Effect.fireEvent (sortBlocks (executeCore d sel host sm li fe le lastIndent).2)]) ++
        [Effect.txEnd]) := by
    rw [htr]
    simp
  have hmid : ∀ e ∈ (executeCore d sel host sm li fe le lastIndent).1 ++
      [Effect.fireEvent (sortBlocks (executeCore d sel host sm li fe le lastIndent).2)],
      e.isTx = false := by
    intro e he
    rcases List.mem_append.mp he with h | h
    · simp only [executeCore] at h
      rcases List.mem_append.mp h with h | h
      · obtain ⟨bs, n, ex, h⟩ := executeStep1_mem d host li fe le lastIndent _ h
        subst h
        rfl
      · rcases executeTailPart_mem sel host sm fe le _ h with
          ⟨f, l, b, h⟩ | ⟨b, h⟩ | ⟨a, b, h⟩ <;> (subst h; rfl)
    · simp only [List.mem_singleton] at h
      subst h
      rfl
  intro n hbal
  rw [hshape] at hbal ⊢
  rcases balanced_prefix_all_or_nothing _ hmid n hbal with h | h
  · rw [h]
    exact Or.inl rfl
  · rw [h]
    exact Or.inr rfl

/-- C8 witness: a balanced full prefix of a concrete run carries all the
mutations. -/
theorem c8_single_transaction_witness :
    execute sampleDoc sampleSel Direction.backward sampleHost = some (sampleTr, sampleCh) ∧
    ((sampleTr.take 4).count Effect.txBegin = (sampleTr.take 4).count Effect.txEnd) ∧
    ((sampleTr.take 4).filter Effect.isMutation = [] ∨
      (sampleTr.take 4).filter Effect.isMutation = sampleTr.filter Effect.isMutation) :=
  ⟨by decide, by decide,
    c8_single_transaction sampleDoc sampleSel Direction.backward sampleHost sampleTr
      sampleCh (by decide) 4 (by decide)⟩

/-- C9: the merge direction is set once at construction and left unchanged by
refresh, execute (and the event emission it performs). -/
theorem c9_direction_immutable (d : List Block) (sel : Selection) (host : HostOutcome)
    (dir : Direction) (c : CommandState) :
    (mkCommand dir)._direction = dir ∧
    (∀ c', refresh d sel c = some c' → c'._direction = c._direction) ∧
    (∀ out, executeCmd d sel host c = some out → out.1._direction = c._direction) := by
  refine ⟨rfl, ?_, ?_⟩
  · intro c' h
    unfold refresh at h
    cases hce : checkEnabled d sel c._direction with
    | none => rw [hce] at h; exact absurd h (by simp)
    | some b =>
      rw [hce] at h
      simp only [Option.map_some'] at h
      obtain rfl := Option.some.inj h
      rfl
  · intro out h
    unfold executeCmd at h
    cases hex : execute d sel c._direction host with
    | none => rw [hex] at h; exact absurd h (by simp)
    | some o =>
      rw [hex] at h
      simp only [Option.map_some'] at h
      obtain rfl := Option.some.inj h
      rfl

/-- C9 witness: construction, a refresh and an execute on concrete states all
leave the direction at its construction-time value. -/
theorem c9_direction_immutable_witness :
    refresh sampleDoc sampleSel (mkCommand Direction.backward) =
      some { _direction := Direction.backward, isEnabled := true } ∧
    ({ _direction := Direction.backward, isEnabled := true } : CommandState)._direction =
      (mkCommand Direction.backward)._direction :=
  ⟨by decide,
    (c9_direction_immutable sampleDoc sampleSel sampleHost Direction.backward
      (mkCommand Direction.backward)).2.1
      { _direction := Direction.backward, isEnabled := true } (by decide)⟩

/-- C10: given a valid position parent, the content-level-merge decision is
always total for a non-collapsed or forward selection, while for a collapsed
backward selection it is total exactly when the position parent's previous
sibling exists — the unguarded dereference errors otherwise, and under the
existence precondition no absent-sibling error is reachable. -/
theorem c10_previous_sibling_guard (d : List Block) (sel : Selection) (dir : Direction)
    (hpp : (d.get? sel.firstIdx).isSome = true) :
    ((¬sel.isCollapsed ∨ dir = Direction.forward) →
      (shouldMergeOnBlocksContentLevel d sel dir).isSome = true) ∧
    (sel.isCollapsed = true → dir = Direction.backward →
      ((shouldMergeOnBlocksContentLevel d sel dir).isSome = true ↔
        (prevIdx d sel.firstIdx >>= d.get?).isSome = true)) := by
  constructor
  · intro h
    unfold shouldMergeOnBlocksContentLevel
    rw [if_pos h]
    rfl
  · intro hc hd
    subst hd
    obtain ⟨pp, hpp'⟩ := Option.isSome_iff_exists.mp hpp
    unfold shouldMergeOnBlocksContentLevel
    rw [if_neg (by simp [hc])]
    simp only [hpp']
    cases hps : prevIdx d sel.firstIdx >>= d.get? with
    | none => simp
    | some ps =>
      simp only [Option.isSome_some, iff_true]
      split_ifs <;> rfl

/-- C10 witness: with the previous sibling present the decision resolves; the
concrete backward collapsed state evaluates it. -/
theorem c10_previous_sibling_guard_witness :
    (sampleDoc.get? sampleSel.firstIdx).isSome = true ∧
    sampleSel.isCollapsed = true ∧
    ((shouldMergeOnBlocksContentLevel sampleDoc sampleSel Direction.backward).isSome = true ↔
      (prevIdx sampleDoc sampleSel.firstIdx >>= sampleDoc.get?).isSome = true) :=
  ⟨by decide, by decide,
    (c10_previous_sibling_guard sampleDoc sampleSel Direction.backward (by decide)).2
      (by decide) rfl⟩

end DocListMerge
